import Mathlib

/-!
# Verification of the lite-lamport signature engine

Shallow embedding of `index.js` of the `lite-lamport` package (a Lamport
one-time signature scheme), together with proofs of the specified
properties.

Modelling conventions:
* A `Buffer` / byte sequence is a `List Nat` (each element a byte value).
* A text string that carries binary content under the configured
  `hashEncoding` is identified with the byte sequence it decodes to,
  since the hash encoding is a fixed bijective rendering of bytes as
  text (base64/hex); other text (JSON blobs, charset renderings) is a
  `List Nat` of character codes.
* The hash collaborators `sha256.js` / `hmac-sha256.js` are files of the
  repository that are not available here; they are modelled from the
  spec as deterministic functions with a fixed 32-byte digest.
* `try`/`catch` around decoding becomes `Option`; a thrown error from
  `generateKeysFromSeed` becomes `Except`.
-/

set_option maxRecDepth 100000

namespace LiteLamport

/-- Byte sequences (JS `Buffer` contents, and hash-encoded strings,
identified with their decoded bytes). -/
abbrev Bytes := List Nat

/-- Text, as a list of character codes. -/
abbrev Str := List Nat

/-! ## Constants of index.js -/

def CHECKSUM_BYTE_SIZE : Nat := 1

def KEY_SIG_ENTRY_COUNT : Nat := 264

def HASH_ELEMENT_BYTE_SIZE : Nat := 32

def SEED_BYTE_SIZE : Nat := 32

/-! ## Bit codec (`convertBufferToBitArray`, checksum construction) -/

/-- The inner loop of `convertBufferToBitArray`: the 8 bits of one byte,
most significant first (`byte >> (7 - i) & 1` for `i = 0..7`). -/
def byteToBits (byte : Nat) : List Nat :=
  (List.range 8).map (fun i => byte >>> (7 - i) &&& 1)

/-- `convertBufferToBitArray(buffer)`: concatenation of the MSB-first
bits of every byte. -/
def convertBufferToBitArray (buffer : Bytes) : List Nat :=
  buffer.flatMap byteToBits

/-- The checksum accumulation in `sign`/`verify`:
`messageBitArray.reduce((total, bit) => total + (bit ^ 1), 0)`. -/
def checksumOfBits (bits : List Nat) : Nat :=
  bits.foldl (fun total bit => total + (bit ^^^ 1)) 0

/-- `Buffer.alloc(CHECKSUM_BYTE_SIZE).fill(checksum)`: one byte; Node
coerces the fill value to a byte, i.e. reduces it modulo 256. -/
def checksumBuffer (checksum : Nat) : Bytes :=
  [checksum % 256]

/-- The 264-bit message bit vector built identically by `sign` and
`verify` from a message digest: the 256 digest bits followed by the 8
bits of the checksum byte. -/
def messageBitVectorOfDigest (digest : Bytes) : List Nat :=
  let messageBitArray := convertBufferToBitArray digest
  messageBitArray ++
    convertBufferToBitArray (checksumBuffer (checksumOfBits messageBitArray))

/-! ## Hash collaborators -/

/-- Modelled from the spec: `sha256.js` is not under src. Spec §6 gives
its contract: a one-way hash `Hash(bytes) -> 32-byte digest`. Only
determinism and the fixed 32-byte output shape are relied on by the
claims; this stands in with a concrete deterministic mixing function
whose output is always 32 bytes. -/
def sha256 (message : Bytes) : Bytes :=
  (List.range 32).map
    (fun i => message.foldl (fun acc b => (acc * 33 + b + 1) % 256) ((i * 7 + message.length) % 256))

/-- Modelled from the spec: `hmac-sha256.js` is not under src. Spec §6
gives its contract: a keyed hash `KeyedHash(key: bytes, message: bytes)
-> 32-byte digest`. Deterministic, 32-byte output. -/
def hmacSha256 (key : Bytes) (message : Str) : Bytes :=
  sha256 (key ++ 54 :: message)

/-! ## Shape validation (`_validateRawKeyFormat`, `_validateRawSignatureFormat`) -/

/-- The per-item check shared by both validators: the item is a string
whose decoded byte length is exactly `HASH_ELEMENT_BYTE_SIZE`. -/
def entryIsValid (item : Bytes) : Bool :=
  item.length == HASH_ELEMENT_BYTE_SIZE

/-- `_validateRawKeyFormat`, as a Boolean check (the JS function throws
on failure; callers wrap it in `Option`): an array of exactly
`KEY_SIG_ENTRY_COUNT` valid items. -/
def validateRawKeyFormat (key : List Bytes) : Bool :=
  key.length == KEY_SIG_ENTRY_COUNT && key.all entryIsValid

/-- `_validateRawSignatureFormat`, as a Boolean check: an array of at
most `KEY_SIG_ENTRY_COUNT` valid items. -/
def validateRawSignatureFormat (signature : List Bytes) : Bool :=
  decide (signature.length ≤ KEY_SIG_ENTRY_COUNT) && signature.all entryIsValid

/-! ## The two text-encoding axes

`hashEncoding` (per-entry text rendering) is identified with the byte
content itself, see the header. The transport charsets used by
`Buffer.from(string, charset)` / `buffer.toString(charset)` (for the
`keyFormat`/`signatureFormat` fall-through branch and for
`seedEncoding`) are Node builtins, i.e. external collaborators; they
are modelled as an abstract pair of total functions. -/

/-- A Node text charset: `toBytes` is `Buffer.from(string, charset)`,
`ofBytes` is `buffer.toString(charset)`. -/
structure Charset where
  toBytes : Str → Bytes
  ofBytes : Bytes → Str

/-- The contract a binary-faithful charset (hex, base64, latin1)
satisfies: decoding its own rendering restores the bytes. -/
def Charset.Faithful (cs : Charset) : Prop :=
  ∀ b : Bytes, cs.toBytes (cs.ofBytes b) = b

/-- Node's `latin1` charset maps bytes to the code points of equal
value, so under the code-list view of text it is the identity. Used as
a concrete faithful charset. -/
def latin1Charset : Charset :=
  { toBytes := fun s => s, ofBytes := fun b => b }

/-! ## JSON serializing of an array of strings

`JSON.stringify` / `JSON.parse` are external builtins; they are
modelled concretely on the only shape this library feeds them: a flat
array of strings. Character codes: 34 `"`, 44 `,`, 91 `[`, 92 `\`,
93 `]`. `stringify` escapes `"` and `\` inside an entry (hash-encoded
entries contain neither, but the model keeps JSON's escaping so that it
is lossless on every entry). -/

def jsonEscape (s : Str) : Str :=
  s.flatMap (fun c => if c == 34 || c == 92 then [92, c] else [c])

/-- One JSON string literal: `"` escaped-content `"`. -/
def jsonQuote (s : Str) : Str :=
  34 :: (jsonEscape s ++ [34])

/-- Rendering of the array elements and closing bracket. -/
def jsonBody : List Str → Str
  | [] => [93]
  | [item] => jsonQuote item ++ [93]
  | item :: rest => jsonQuote item ++ 44 :: jsonBody rest

/-- `JSON.stringify` on an array of strings. -/
def jsonStringify (items : List Str) : Str :=
  91 :: jsonBody items

/-- Parse one JSON string literal after its opening quote; returns the
unescaped content and the remaining input after the closing quote. -/
def parseJsonString : Str → Option (Str × Str)
  | [] => none
  | 92 :: c :: rest =>
    (parseJsonString rest).map (fun p => (c :: p.1, p.2))
  | c :: rest =>
    if c == 34 then some ([], rest)
    else (parseJsonString rest).map (fun p => (c :: p.1, p.2))

/-- Parse the element list of a JSON array of strings (everything after
the opening `[`); fuelled recursion. -/
def parseJsonArrayAux : Nat → Str → Option (List Str)
  | 0, _ => none
  | _ + 1, [93] => some []
  | fuel + 1, 34 :: rest =>
    match parseJsonString rest with
    | some (item, [93]) => some [item]
    | some (item, 44 :: rest2) =>
      (parseJsonArrayAux fuel rest2).map (fun l => item :: l)
    | _ => none
  | _ + 1, _ => none

/-- `JSON.parse`, restricted to the array-of-strings shape this library
produces; any other input is a parse failure. -/
def jsonParse (s : Str) : Option (List Str) :=
  match s with
  | 91 :: rest => parseJsonArrayAux (rest.length + 1) rest
  | _ => none

/-! ## Binary packaging (`_encodeKeyToBuffer` and friends)

Each entry's string is decoded under `hashEncoding` (identity under the
byte view) and the buffers concatenated; decoding slices the buffer
back into `HASH_ELEMENT_BYTE_SIZE`-byte entries. -/

/-- `_encodeKeyToBuffer(rawKey)`: `Buffer.concat` of the decoded
entries. -/
def encodeKeyToBuffer (rawKey : List Bytes) : Bytes :=
  rawKey.flatten

/-- `_encodeSignatureToBuffer(rawSignature)`: identical construction. -/
def encodeSignatureToBuffer (rawSignature : List Bytes) : Bytes :=
  rawSignature.flatten

/-- The slicing loop shared by `_decodeKeyFromBuffer` and
`_decodeSignatureFromBuffer`: `entryCount = byteLength / 32` slices of
32 bytes starting at `i * 32`. -/
def sliceEntries (buffer : Bytes) : List Bytes :=
  (List.range (buffer.length / HASH_ELEMENT_BYTE_SIZE)).map
    (fun i => (buffer.drop (i * HASH_ELEMENT_BYTE_SIZE)).take HASH_ELEMENT_BYTE_SIZE)

/-- `_decodeKeyFromBuffer(encodedKey)`: requires exactly
`KEY_SIG_ENTRY_COUNT * HASH_ELEMENT_BYTE_SIZE` bytes, then slices. -/
def decodeKeyFromBuffer (encodedKey : Bytes) : Option (List Bytes) :=
  if encodedKey.length == KEY_SIG_ENTRY_COUNT * HASH_ELEMENT_BYTE_SIZE then
    some (sliceEntries encodedKey)
  else none

/-- `_decodeSignatureFromBuffer(encodedSignature)`: at most
`KEY_SIG_ENTRY_COUNT * HASH_ELEMENT_BYTE_SIZE` bytes, a multiple of
`HASH_ELEMENT_BYTE_SIZE`, then slices. -/
def decodeSignatureFromBuffer (encodedSignature : Bytes) : Option (List Bytes) :=
  if decide (KEY_SIG_ENTRY_COUNT * HASH_ELEMENT_BYTE_SIZE < encodedSignature.length) then none
  else if encodedSignature.length % HASH_ELEMENT_BYTE_SIZE != 0 then none
  else some (sliceEntries encodedSignature)

/-! ## Format dispatch (the constructor's closures) -/

/-- The four recognized transport formats: `'object'`, `'json'`,
`'buffer'`, and the fall-through `Buffer`-charset branch. -/
inductive FormatName where
  | object : FormatName
  | json : FormatName
  | buffer : FormatName
  | text : Charset → FormatName

/-- Whether a format's external layer is lossless on byte content; only
the charset branch depends on the collaborator. -/
def FormatName.Faithful : FormatName → Prop
  | .text cs => cs.Faithful
  | _ => True

/-- An encoded key or signature, as handed across the external
boundary: a structured array, a text blob, or a binary buffer. -/
inductive Encoded where
  | arr : List Bytes → Encoded
  | str : Str → Encoded
  | buf : Bytes → Encoded
deriving DecidableEq

/-- `this.encodeKey`, per configured `keyFormat`. -/
def encodeKey (fmt : FormatName) (rawKey : List Bytes) : Encoded :=
  match fmt with
  | .object => .arr rawKey
  | .json => .str (jsonStringify rawKey)
  | .buffer => .buf (encodeKeyToBuffer rawKey)
  | .text cs => .str (cs.ofBytes (encodeKeyToBuffer rawKey))

/-- `this.decodeKey`, per configured `keyFormat`; a thrown validation
or parse error is `none`. A value of the wrong dynamic shape for the
configured format fails decoding. -/
def decodeKey (fmt : FormatName) (encodedKey : Encoded) : Option (List Bytes) :=
  match fmt, encodedKey with
  | .object, .arr key => if validateRawKeyFormat key then some key else none
  | .json, .str s =>
    match jsonParse s with
    | some decodedKey =>
      if validateRawKeyFormat decodedKey then some decodedKey else none
    | none => none
  | .buffer, .buf b => decodeKeyFromBuffer b
  | .text cs, .str s => decodeKeyFromBuffer (cs.toBytes s)
  | _, _ => none

/-- `this.encodeSignature`, per configured `signatureFormat`. -/
def encodeSignature (fmt : FormatName) (rawSignature : List Bytes) : Encoded :=
  match fmt with
  | .object => .arr rawSignature
  | .json => .str (jsonStringify rawSignature)
  | .buffer => .buf (encodeSignatureToBuffer rawSignature)
  | .text cs => .str (cs.ofBytes (encodeSignatureToBuffer rawSignature))

/-- `this.decodeSignature`, per configured `signatureFormat`. In the
`'object'` branch the source returns a fresh copy
`[...encodedSignature]` of the validated array; value-wise this is the
array itself (the aliasing aspect is modelled separately by the store
semantics below). -/
def decodeSignature (fmt : FormatName) (encodedSignature : Encoded) : Option (List Bytes) :=
  match fmt, encodedSignature with
  | .object, .arr s => if validateRawSignatureFormat s then some s else none
  | .json, .str s =>
    match jsonParse s with
    | some decodedSignature =>
      if validateRawSignatureFormat decodedSignature then some decodedSignature else none
    | none => none
  | .buffer, .buf b => decodeSignatureFromBuffer b
  | .text cs, .str s => decodeSignatureFromBuffer (cs.toBytes s)
  | _, _ => none

/-- The configuration captured at construction. `hashEncoding` is
absorbed by the byte view of entries. -/
structure Config where
  keyFormat : FormatName
  signatureFormat : FormatName
  seedCharset : Charset

/-- The `'object'`/`'object'` configuration (with `latin1` seeds), used
for concrete instances. -/
def cfgObject : Config :=
  { keyFormat := .object, signatureFormat := .object, seedCharset := latin1Charset }

/-! ## Key generation -/

/-- `getRawPublicKeyFromRawPrivateKey`: hash every private entry. -/
def getRawPublicKeyFromRawPrivateKey (privateKeyRaw : List Bytes) : List Bytes :=
  privateKeyRaw.map sha256

/-- The secure random source `randomBytes(n)` (an external collaborator,
spec §6: `draw(n) -> n uniformly random bytes`): the j-th byte of the
i-th draw comes from an arbitrary entropy oracle; the output length is
the collaborator's contract, so it holds by construction. -/
def randomBytes (entropy : Nat → Nat → Nat) (size draw : Nat) : Bytes :=
  (List.range size).map (entropy draw)

/-- `generateRandomArray(length, elementBytes)`: one fresh draw per
entry. -/
def generateRandomArray (entropy : Nat → Nat → Nat) (length elementBytes : Nat) :
    List Bytes :=
  (List.range length).map (fun i => randomBytes entropy elementBytes i)

/-- The decimal character codes of a number, as interpolated by the JS
template literal. -/
def natToDecChars (n : Nat) : Str :=
  (Nat.toDigits 10 n).map Char.toNat

/-- `generateRandomArrayFromSeed(length, seed, suffix)`: entry i is
`hmacSha256(seed, seedEncoding, `${suffix}-${i}`, hashEncoding)`
(45 is `-`). -/
def generateRandomArrayFromSeed (length : Nat) (seedBytes : Bytes) (suffix : Nat) : List Bytes :=
  (List.range length).map
    (fun i => hmacSha256 seedBytes (natToDecChars suffix ++ 45 :: natToDecChars i))

/-- `generateKeys()`. -/
def generateKeys (cfg : Config) (entropy : Nat → Nat → Nat) : Encoded × Encoded :=
  let privateKey := generateRandomArray entropy KEY_SIG_ENTRY_COUNT HASH_ELEMENT_BYTE_SIZE
  let publicKey := getRawPublicKeyFromRawPrivateKey privateKey
  (encodeKey cfg.keyFormat privateKey, encodeKey cfg.keyFormat publicKey)

/-- The error thrown by `generateKeysFromSeed` when the decoded seed is
too short. -/
inductive LamportError where
  | SeedTooShortError : LamportError
deriving DecidableEq

/-- `generateKeysFromSeed(seed, index)`. The `index == null` default is
absorbed by taking the index as a `Nat`. -/
def generateKeysFromSeed (cfg : Config) (seed : Str) (index : Nat) :
    Except LamportError (Encoded × Encoded) :=
  let seedBuffer := cfg.seedCharset.toBytes seed
  if seedBuffer.length < SEED_BYTE_SIZE then
    .error .SeedTooShortError
  else
    let privateKey := generateRandomArrayFromSeed KEY_SIG_ENTRY_COUNT seedBuffer index
    let publicKey := getRawPublicKeyFromRawPrivateKey privateKey
    .ok (encodeKey cfg.keyFormat privateKey, encodeKey cfg.keyFormat publicKey)

/-! ## Signing -/

/-- The bit vector both `sign` and `verify` build from the message:
digest bits followed by the pushed checksum bits. -/
def messageBitVector (message : Bytes) : List Nat :=
  messageBitVectorOfDigest (sha256 message)

/-- The selection body of `sign`, over an indexed bit list:
`.map((bit, index) => bit ? privateKeyRaw[index] : null)` followed by
`.filter(item => item)`. `null` entries, out-of-range indices
(`undefined`), and the falsy empty string are all dropped by the
filter. -/
def selectFrom (start : Nat) (bits : List Nat) (privateKeyRaw : List Bytes) : List Bytes :=
  (List.enumFrom start bits).filterMap
    (fun p => if p.2 != 0 then privateKeyRaw[p.1]?.filter (fun item => item != []) else none)

/-- `sign` after the private key has been decoded. -/
def signRaw (message : Bytes) (privateKeyRaw : List Bytes) : List Bytes :=
  selectFrom 0 (messageBitVector message) privateKeyRaw

/-- `sign(message, privateKey)`: decode the key (a thrown error is
`none`), select, encode the signature. -/
def sign (cfg : Config) (message : Bytes) (privateKey : Encoded) : Option Encoded :=
  match decodeKey cfg.keyFormat privateKey with
  | some privateKeyRaw => some (encodeSignature cfg.signatureFormat (signRaw message privateKeyRaw))
  | none => none

/-! ## Verification -/

/-- The `.every((bit, index) => ...)` loop of `verify`, over the
enumerated bit vector. The source holds `invertedSignatureRaw`
(the reversed signature) and pops entries from its tail. -/
def verifyLoop (publicKeyRaw : List Bytes) :
    List (Nat × Nat) → List Bytes → Bool
  | [], _ => true
  | (index, bit) :: rest, invertedSignatureRaw =>
    if bit == 0 then verifyLoop publicKeyRaw rest invertedSignatureRaw
    else if invertedSignatureRaw.isEmpty then false
    else
      let nextSignatureItem := invertedSignatureRaw.getLastD []
      let signatureItemHash := sha256 nextSignatureItem
      if publicKeyRaw[index]? = some signatureItemHash then
        verifyLoop publicKeyRaw rest invertedSignatureRaw.dropLast
      else false

/-- `verify` after both decodes succeeded: reverse the signature, then
run the consumption loop. -/
def verifyRaw (message : Bytes) (signatureRaw publicKeyRaw : List Bytes) : Bool :=
  verifyLoop publicKeyRaw (messageBitVector message).enum signatureRaw.reverse

/-- `verify(message, signature, publicKey)`: any decode failure is
caught and becomes `false`. -/
def verify (cfg : Config) (message : Bytes) (signature publicKey : Encoded) : Bool :=
  match decodeSignature cfg.signatureFormat signature, decodeKey cfg.keyFormat publicKey with
  | some signatureRaw, some publicKeyRaw => verifyRaw message signatureRaw publicKeyRaw
  | _, _ => false

/-- The composite `verify(M, sign(M, priv), pub)` of the spec's
round-trip property (a thrown `sign` is `false`). -/
def signThenVerify (cfg : Config) (message : Bytes) (privateKey publicKey : Encoded) : Bool :=
  match sign cfg message privateKey with
  | some signature => verify cfg message signature publicKey
  | none => false

/-- Generate a key pair from a seed, then sign and verify with it
(`false` when key generation fails). -/
def seedKeysThenSignVerify (cfg : Config) (seed : Str) (index : Nat) (message : Bytes) : Bool :=
  match generateKeysFromSeed cfg seed index with
  | .ok keyPair => signThenVerify cfg message keyPair.1 keyPair.2
  | .error _ => false

/-! ## Reference verifier (spec §4.4)

A second definition following the spec's words, for the refinement
claim: a forward cursor that consumes signature entries strictly in
order from the front — no reversal. -/

/-- Spec §4.4 walk: bit 0 leaves the cursor unchanged; bit 1 fails on
an exhausted signature, otherwise takes the next entry from the front,
hashes it and compares with `publicKey[i]`. -/
def verifyForwardLoop (publicKeyRaw : List Bytes) :
    List (Nat × Nat) → List Bytes → Bool
  | [], _ => true
  | (index, bit) :: rest, signatureRaw =>
    if bit == 0 then verifyForwardLoop publicKeyRaw rest signatureRaw
    else
      match signatureRaw with
      | [] => false
      | entry :: remaining =>
        if publicKeyRaw[index]? = some (sha256 entry) then
          verifyForwardLoop publicKeyRaw rest remaining
        else false

/-- The forward-cursor reference algorithm of spec §4.4. -/
def verifyForward (message : Bytes) (signatureRaw publicKeyRaw : List Bytes) : Bool :=
  verifyForwardLoop publicKeyRaw (messageBitVector message).enum signatureRaw

/-! ## Spec-side signature characterization (§4.3)

Used to state what `sign` selects: the private entries at the 1-bit
positions, in increasing index order. -/

/-- Entries of `entries` at the positions where the aligned bit is 1,
preserving order. -/
def oneBitSelectedEntries (bits : List Nat) (entries : List Bytes) : List Bytes :=
  (bits.zip entries).filterMap (fun p => if p.1 == 1 then some p.2 else none)

/-! ## Store semantics for the `'object'` signature path

JS arrays are mutable references. `verify` reverses and pops the
decoded signature array in place; under the `'object'` signature format
`decodeSignature` returns the fresh copy `[...encodedSignature]`, while
`decodeKey` under `'object'` returns the caller's very array. A minimal
store of array values makes the aliasing explicit. -/

/-- A store of JS array values: locations below `next` are allocated. -/
structure Store where
  mem : Nat → List Bytes
  next : Nat

/-- Overwrite the array at a location. -/
def Store.write (σ : Store) (target : Nat) (v : List Bytes) : Store :=
  { mem := fun cell => if cell = target then v else σ.mem cell, next := σ.next }

/-- Allocate a fresh array initialized to `v`; returns its location. -/
def Store.alloc (σ : Store) (v : List Bytes) : Nat × Store :=
  (σ.next, { mem := fun cell => if cell = σ.next then v else σ.mem cell, next := σ.next + 1 })

/-- `decodeSignature` for `'object'`, on the store: validates the
caller's array and returns a fresh copy `[...encodedSignature]`. -/
def decodeSignatureObjectS (σ : Store) (source : Nat) : Option (Nat × Store) :=
  if validateRawSignatureFormat (σ.mem source) then some (σ.alloc (σ.mem source)) else none

/-- `decodeKey` for `'object'`, on the store: validates and returns the
caller's array itself (no copy). -/
def decodeKeyObjectS (σ : Store) (source : Nat) : Option Nat :=
  if validateRawKeyFormat (σ.mem source) then some source else none

/-- The `verify` loop on the store: each pop rewrites the decoded
signature array in place (dropping its last element); the public key
array is only read. -/
def verifyLoopS (σ : Store) (pubLoc : Nat) :
    List (Nat × Nat) → Nat → Store × Bool
  | [], _ => (σ, true)
  | (index, bit) :: rest, sigLoc =>
    if bit == 0 then verifyLoopS σ pubLoc rest sigLoc
    else
      let inverted := σ.mem sigLoc
      if inverted.isEmpty then (σ, false)
      else
        let nextSignatureItem := inverted.getLastD []
        let popped := σ.write sigLoc inverted.dropLast
        if (popped.mem pubLoc)[index]? = some (sha256 nextSignatureItem) then
          verifyLoopS popped pubLoc rest sigLoc
        else (popped, false)

/-- `verify` with the `'object'` formats, on the store: decode both
arguments (decode failure returns `false` and leaves the loop unrun),
reverse the decoded signature in place, then run the loop. -/
def verifyS (σ : Store) (message : Bytes) (sigLoc pubLoc : Nat) : Store × Bool :=
  match decodeSignatureObjectS σ sigLoc with
  | none => (σ, false)
  | some copy =>
    match decodeKeyObjectS copy.2 pubLoc with
    | none => (copy.2, false)
    | some pubRawLoc =>
      let σ2 := copy.2.write copy.1 (copy.2.mem copy.1).reverse
      verifyLoopS σ2 pubRawLoc (messageBitVector message).enum copy.1

/-! ### Basic facts about the bit codec -/

theorem byteToBits_length (byte : Nat) : (byteToBits byte).length = 8 := by
  simp [byteToBits]

theorem byteToBits_le_one {byte b : Nat} (hb : b ∈ byteToBits byte) : b ≤ 1 := by
  simp only [byteToBits, List.mem_map] at hb
  obtain ⟨i, -, rfl⟩ := hb
  exact Nat.and_le_right

theorem convertBufferToBitArray_length (buffer : Bytes) :
    (convertBufferToBitArray buffer).length = 8 * buffer.length := by
  induction buffer with
  | nil => rfl
  | cons x xs ih =>
    simp only [convertBufferToBitArray, List.flatMap_cons] at ih ⊢
    simp [ih, byteToBits_length, Nat.mul_succ, Nat.mul_add, Nat.add_comm]

theorem convertBufferToBitArray_le_one {buffer : Bytes} {b : Nat}
    (hb : b ∈ convertBufferToBitArray buffer) : b ≤ 1 := by
  simp only [convertBufferToBitArray, List.mem_flatMap] at hb
  obtain ⟨x, -, hbx⟩ := hb
  exact byteToBits_le_one hbx

theorem sha256_length (message : Bytes) : (sha256 message).length = 32 := by
  simp [sha256]

theorem messageBitVectorOfDigest_le_one {digest : Bytes} {b : Nat}
    (hb : b ∈ messageBitVectorOfDigest digest) : b ≤ 1 := by
  simp only [messageBitVectorOfDigest, List.mem_append] at hb
  rcases hb with hb | hb
  · exact convertBufferToBitArray_le_one hb
  · exact convertBufferToBitArray_le_one hb

theorem messageBitVectorOfDigest_length {digest : Bytes}
    (hd : digest.length = 32) :
    (messageBitVectorOfDigest digest).length = 264 := by
  simp [messageBitVectorOfDigest, convertBufferToBitArray_length, checksumBuffer, hd]

/-- The checksum accumulator counts the zero bits, provided every bit
is 0 or 1 (which `convertBufferToBitArray` guarantees). -/
theorem checksumOfBits_eq_count_zero {bits : List Nat}
    (h : ∀ b ∈ bits, b ≤ 1) : checksumOfBits bits = bits.count 0 := by
  suffices hgen : ∀ (l : List Nat) (a : Nat), (∀ b ∈ l, b ≤ 1) →
      l.foldl (fun total bit => total + (bit ^^^ 1)) a = a + l.count 0 by
    simpa [checksumOfBits] using hgen bits 0 h
  intro l
  induction l with
  | nil => simp
  | cons x xs ih =>
    intro a hl
    have hx : x ≤ 1 := hl x (List.mem_cons_self x xs)
    have hxs : ∀ b ∈ xs, b ≤ 1 := fun b hb => hl b (List.mem_cons_of_mem x hb)
    interval_cases x <;>
      simp [List.count_cons, ih _ hxs, Nat.add_comm, Nat.add_assoc, Nat.add_left_comm]

/-! ### Validators -/

theorem validateRawKeyFormat_iff {key : List Bytes} :
    validateRawKeyFormat key = true ↔
      key.length = KEY_SIG_ENTRY_COUNT ∧ ∀ e ∈ key, e.length = HASH_ELEMENT_BYTE_SIZE := by
  simp [validateRawKeyFormat, entryIsValid, List.all_eq_true]

theorem validateRawSignatureFormat_iff {signature : List Bytes} :
    validateRawSignatureFormat signature = true ↔
      signature.length ≤ KEY_SIG_ENTRY_COUNT ∧
        ∀ e ∈ signature, e.length = HASH_ELEMENT_BYTE_SIZE := by
  simp [validateRawSignatureFormat, entryIsValid, List.all_eq_true]

/-! ### Binary slicing round-trip -/

theorem flatten_length_of_entries {k : List Bytes}
    (hk : ∀ e ∈ k, e.length = HASH_ELEMENT_BYTE_SIZE) :
    k.flatten.length = HASH_ELEMENT_BYTE_SIZE * k.length := by
  induction k with
  | nil => rfl
  | cons e rest ih =>
    have he : e.length = HASH_ELEMENT_BYTE_SIZE := hk e (List.mem_cons_self e rest)
    have hrest := ih (fun x hx => hk x (List.mem_cons_of_mem e hx))
    simp [he, hrest, Nat.mul_succ, Nat.add_comm]

theorem sliceEntries_cons {e : Bytes} (rest : Bytes)
    (he : e.length = HASH_ELEMENT_BYTE_SIZE) :
    sliceEntries (e ++ rest) = e :: sliceEntries rest := by
  unfold sliceEntries
  have hdiv : (e ++ rest).length / HASH_ELEMENT_BYTE_SIZE =
      rest.length / HASH_ELEMENT_BYTE_SIZE + 1 := by
    simp only [List.length_append, he, HASH_ELEMENT_BYTE_SIZE]
    omega
  rw [hdiv, List.range_succ_eq_map]
  simp only [List.map_cons, List.map_map]
  refine congrArg₂ _ ?_ ?_
  · rw [Nat.zero_mul, List.drop_zero, ← he, List.take_left]
  · refine List.map_congr_left (fun i _ => ?_)
    have harith : (i + 1) * HASH_ELEMENT_BYTE_SIZE = e.length + i * HASH_ELEMENT_BYTE_SIZE := by
      simp [he, Nat.succ_mul, Nat.add_comm]
    simp only [Function.comp_apply, harith, List.drop_append]

theorem sliceEntries_flatten {k : List Bytes}
    (hk : ∀ e ∈ k, e.length = HASH_ELEMENT_BYTE_SIZE) :
    sliceEntries k.flatten = k := by
  induction k with
  | nil => rfl
  | cons e rest ih =>
    rw [List.flatten_cons, sliceEntries_cons _ (hk e (List.mem_cons_self e rest)),
      ih (fun x hx => hk x (List.mem_cons_of_mem e hx))]

theorem decodeKeyFromBuffer_encode {k : List Bytes}
    (hk : validateRawKeyFormat k = true) :
    decodeKeyFromBuffer (encodeKeyToBuffer k) = some k := by
  obtain ⟨hlen, hentries⟩ := validateRawKeyFormat_iff.mp hk
  have hflat := flatten_length_of_entries hentries
  simp [decodeKeyFromBuffer, encodeKeyToBuffer, hflat, hlen,
    Nat.mul_comm, sliceEntries_flatten hentries]

theorem decodeSignatureFromBuffer_encode {s : List Bytes}
    (hs : validateRawSignatureFormat s = true) :
    decodeSignatureFromBuffer (encodeSignatureToBuffer s) = some s := by
  obtain ⟨hlen, hentries⟩ := validateRawSignatureFormat_iff.mp hs
  have hflat := flatten_length_of_entries hentries
  have hle : HASH_ELEMENT_BYTE_SIZE * s.length ≤
      KEY_SIG_ENTRY_COUNT * HASH_ELEMENT_BYTE_SIZE := by
    simp only [HASH_ELEMENT_BYTE_SIZE, KEY_SIG_ENTRY_COUNT] at hlen ⊢
    omega
  simp [decodeSignatureFromBuffer, encodeSignatureToBuffer, hflat,
    Nat.not_lt.mpr hle, Nat.mul_mod_right, sliceEntries_flatten hentries]

/-! ### JSON round-trip -/

theorem parseJsonString_escape (item rest : Str) :
    parseJsonString (jsonEscape item ++ 34 :: rest) = some (item, rest) := by
  induction item with
  | nil => simp [jsonEscape, parseJsonString]
  | cons c cs ih =>
    by_cases hesc : c = 34 ∨ c = 92
    · have hbool : (c == 34 || c == 92) = true := by
        rcases hesc with h | h <;> simp [h]
      have hform : jsonEscape (c :: cs) ++ 34 :: rest =
          92 :: c :: (jsonEscape cs ++ 34 :: rest) := by
        simp only [jsonEscape, List.flatMap_cons, hbool, if_true, List.cons_append,
          List.nil_append]
      rw [hform, parseJsonString, ih]
      rfl
    · push_neg at hesc
      obtain ⟨h34, h92⟩ := hesc
      have hbool : (c == 34 || c == 92) = false := by simp [h34, h92]
      have hform : jsonEscape (c :: cs) ++ 34 :: rest =
          c :: (jsonEscape cs ++ 34 :: rest) := by
        simp only [jsonEscape, List.flatMap_cons, hbool, Bool.false_eq_true, if_false,
          List.cons_append, List.nil_append]
      rw [hform, parseJsonString.eq_def]
      split
      · rename_i heq
        exact absurd heq (by simp)
      · rename_i c2 rest2 heq
        exfalso
        injection heq with h1 _
        exact h92 h1
      · rename_i c2 rest2 hne heq
        injection heq with h1 h2
        subst h1
        subst h2
        rw [if_neg (by simp [h34]), ih]
        rfl

theorem jsonBody_length_ge (items : List Str) :
    items.length ≤ (jsonBody items).length := by
  induction items with
  | nil => simp [jsonBody]
  | cons item rest ih =>
    cases rest with
    | nil => simp [jsonBody, jsonQuote]
    | cons r rs =>
      have hstep : jsonBody (item :: r :: rs) = jsonQuote item ++ 44 :: jsonBody (r :: rs) :=
        rfl
      rw [hstep]
      simp only [List.length_append, List.length_cons, jsonQuote] at ih ⊢
      omega

theorem parseJsonArrayAux_body (items : List Str) :
    ∀ fuel, items.length < fuel →
      parseJsonArrayAux fuel (jsonBody items) = some items := by
  induction items with
  | nil =>
    intro fuel hfuel
    match fuel, hfuel with
    | fuel + 1, _ => rfl
  | cons item rest ih =>
    intro fuel hfuel
    match fuel, hfuel with
    | fuel + 1, hfuel =>
      cases rest with
      | nil =>
        have hform : jsonBody [item] = 34 :: (jsonEscape item ++ 34 :: [93]) := by
          simp [jsonBody, jsonQuote]
        rw [hform, parseJsonArrayAux, parseJsonString_escape]
      | cons r rs =>
        have hform : jsonBody (item :: r :: rs) =
            34 :: (jsonEscape item ++ 34 :: (44 :: jsonBody (r :: rs))) := by
          simp [jsonBody, jsonQuote]
        rw [hform, parseJsonArrayAux, parseJsonString_escape]
        split
        · rename_i heq
          exfalso
          simp at heq
        · rename_i item2 rest2 heq
          simp only [Option.some.injEq, Prod.mk.injEq, List.cons.injEq, true_and] at heq
          obtain ⟨h1, h2⟩ := heq
          subst h1
          subst h2
          rw [ih fuel (by simpa using Nat.lt_of_succ_lt_succ hfuel)]
          rfl
        · rename_i hno heq
          exfalso
          simp_all

theorem jsonParse_stringify (items : List Str) :
    jsonParse (jsonStringify items) = some items := by
  rw [jsonStringify, jsonParse]
  exact parseJsonArrayAux_body items _ (Nat.lt_succ_of_le (jsonBody_length_ge items))

/-! ### Encode/decode round-trips per format -/

theorem decodeKey_encodeKey {fmt : FormatName} (hf : fmt.Faithful) {k : List Bytes}
    (hk : validateRawKeyFormat k = true) :
    decodeKey fmt (encodeKey fmt k) = some k := by
  cases fmt with
  | object => simp [encodeKey, decodeKey, hk]
  | json => simp [encodeKey, decodeKey, jsonParse_stringify, hk]
  | buffer => simpa [encodeKey, decodeKey] using decodeKeyFromBuffer_encode hk
  | text cs =>
    simp only [encodeKey, decodeKey, hf (encodeKeyToBuffer k)]
    exact decodeKeyFromBuffer_encode hk

theorem decodeSignature_encodeSignature {fmt : FormatName} (hf : fmt.Faithful)
    {s : List Bytes} (hs : validateRawSignatureFormat s = true) :
    decodeSignature fmt (encodeSignature fmt s) = some s := by
  cases fmt with
  | object => simp [encodeSignature, decodeSignature, hs]
  | json => simp [encodeSignature, decodeSignature, jsonParse_stringify, hs]
  | buffer =>
    simpa [encodeSignature, decodeSignature] using decodeSignatureFromBuffer_encode hs
  | text cs =>
    simp only [encodeSignature, decodeSignature, hf (encodeSignatureToBuffer s)]
    exact decodeSignatureFromBuffer_encode hs


/-! ### Step equations of the two consumption loops -/

theorem verifyLoop_cons (publicKeyRaw : List Bytes) (index bit : Nat)
    (rest : List (Nat × Nat)) (inverted : List Bytes) :
    verifyLoop publicKeyRaw ((index, bit) :: rest) inverted =
      if bit == 0 then verifyLoop publicKeyRaw rest inverted
      else if inverted.isEmpty then false
      else if publicKeyRaw[index]? = some (sha256 (inverted.getLastD [])) then
        verifyLoop publicKeyRaw rest inverted.dropLast
      else false := rfl

theorem verifyForwardLoop_cons (publicKeyRaw : List Bytes) (index bit : Nat)
    (rest : List (Nat × Nat)) (signatureRaw : List Bytes) :
    verifyForwardLoop publicKeyRaw ((index, bit) :: rest) signatureRaw =
      if bit == 0 then verifyForwardLoop publicKeyRaw rest signatureRaw
      else
        match signatureRaw with
        | [] => false
        | entry :: remaining =>
          if publicKeyRaw[index]? = some (sha256 entry) then
            verifyForwardLoop publicKeyRaw rest remaining
          else false := rfl

/-! ### Reverse-then-pop consumption is forward consumption -/

theorem verifyLoop_reverse_eq_forward (publicKeyRaw : List Bytes)
    (pairs : List (Nat × Nat)) :
    ∀ signatureRaw : List Bytes,
      verifyLoop publicKeyRaw pairs signatureRaw.reverse =
        verifyForwardLoop publicKeyRaw pairs signatureRaw := by
  induction pairs with
  | nil => intro s; rfl
  | cons p rest ih =>
    intro s
    obtain ⟨index, bit⟩ := p
    rw [verifyLoop_cons, verifyForwardLoop_cons]
    by_cases hbit : (bit == 0) = true
    · rw [if_pos hbit, if_pos hbit, ih s]
    · rw [if_neg hbit, if_neg hbit]
      cases s with
      | nil => rfl
      | cons entry remaining =>
        have hrev : (entry :: remaining).reverse = remaining.reverse ++ [entry] := by
          simp
        rw [hrev]
        have hne : (remaining.reverse ++ [entry]).isEmpty = false := by
          simp [List.isEmpty_iff]
        rw [if_neg (by simp [hne])]
        have hlast : (remaining.reverse ++ [entry]).getLastD [] = entry := by simp
        have hdrop : (remaining.reverse ++ [entry]).dropLast = remaining.reverse := by simp
        rw [hlast, hdrop]
        dsimp only
        by_cases hpub : publicKeyRaw[index]? = some (sha256 entry)
        · rw [if_pos hpub, if_pos hpub, ih remaining]
        · rw [if_neg hpub, if_neg hpub]

/-! ### What `sign` selects -/

theorem oneBitSelectedEntries_cons (b : Nat) (bs : List Nat) (e : Bytes)
    (es : List Bytes) :
    oneBitSelectedEntries (b :: bs) (e :: es) =
      if b = 1 then e :: oneBitSelectedEntries bs es
      else oneBitSelectedEntries bs es := by
  by_cases hb : b = 1 <;>
    simp [oneBitSelectedEntries, List.zip_cons_cons, List.filterMap_cons, hb]

theorem selectFrom_eq_oneBitSelectedEntries (privateKeyRaw : List Bytes)
    (hne : ∀ e ∈ privateKeyRaw, e ≠ []) :
    ∀ (bits : List Nat) (start : Nat), (∀ b ∈ bits, b ≤ 1) →
      start + bits.length ≤ privateKeyRaw.length →
      selectFrom start bits privateKeyRaw =
        oneBitSelectedEntries bits (privateKeyRaw.drop start) := by
  intro bits
  induction bits with
  | nil => intro start _ _; rfl
  | cons b bs ih =>
    intro start hb hlen
    have hstart : start < privateKeyRaw.length := by
      simp only [List.length_cons] at hlen
      omega
    have hdropc : privateKeyRaw.drop start =
        privateKeyRaw[start] :: privateKeyRaw.drop (start + 1) :=
      List.drop_eq_getElem_cons hstart
    have hget : privateKeyRaw[start]? = some privateKeyRaw[start] :=
      List.getElem?_eq_getElem hstart
    have hbs : ∀ x ∈ bs, x ≤ 1 := fun x hx => hb x (List.mem_cons_of_mem b hx)
    have hlen2 : start + 1 + bs.length ≤ privateKeyRaw.length := by
      simp only [List.length_cons] at hlen
      omega
    have hrec := ih (start + 1) hbs hlen2
    have hecne : privateKeyRaw[start] ≠ [] := hne _ (List.getElem_mem hstart)
    have hfilter : (some privateKeyRaw[start]).filter (fun item => item != []) =
        some privateKeyRaw[start] := by
      simp [Option.filter, hecne]
    have hble : b ≤ 1 := hb b (List.mem_cons_self b bs)
    interval_cases b
    · have hsel : selectFrom start (0 :: bs) privateKeyRaw =
          selectFrom (start + 1) bs privateKeyRaw := by
        simp [selectFrom, List.enumFrom, List.filterMap_cons]
      rw [hsel, hrec, hdropc, oneBitSelectedEntries_cons, if_neg (by decide)]
    · have hsel : selectFrom start (1 :: bs) privateKeyRaw =
          privateKeyRaw[start] :: selectFrom (start + 1) bs privateKeyRaw := by
        simp [selectFrom, List.enumFrom, List.filterMap_cons, hget, hfilter]
      rw [hsel, hrec, hdropc, oneBitSelectedEntries_cons, if_pos rfl]

theorem oneBitSelectedEntries_length (bits : List Nat) :
    ∀ entries : List Bytes, bits.length ≤ entries.length →
      (oneBitSelectedEntries bits entries).length = bits.count 1 := by
  induction bits with
  | nil => intro entries _; rfl
  | cons b bs ih =>
    intro entries hlen
    cases entries with
    | nil => simp at hlen
    | cons e es =>
      have hrec := ih es (by simpa using hlen)
      rw [oneBitSelectedEntries_cons]
      by_cases hb : b = 1
      · rw [if_pos hb]
        simp [List.count_cons, hrec, hb]
      · rw [if_neg hb]
        simp [List.count_cons, hrec, hb]

theorem mem_selectFrom {privateKeyRaw : List Bytes} {x : Bytes} {bits : List Nat}
    {start : Nat} (hx : x ∈ selectFrom start bits privateKeyRaw) :
    x ∈ privateKeyRaw := by
  simp only [selectFrom, List.mem_filterMap] at hx
  obtain ⟨p, -, hp⟩ := hx
  by_cases hbit : (p.2 != 0) = true
  · rw [if_pos hbit] at hp
    rcases hopt : privateKeyRaw[p.1]? with _ | e
    · rw [hopt] at hp
      simp [Option.filter] at hp
    · rw [hopt] at hp
      have hex : x = e := by
        simp only [Option.filter] at hp
        by_cases he : (e != []) = true <;> simp [he] at hp
        exact hp.symm
      subst hex
      obtain ⟨hlt, rfl⟩ := List.getElem?_eq_some.mp hopt
      exact List.getElem_mem hlt
  · rw [if_neg hbit] at hp
    cases hp

theorem selectFrom_length_le (bits : List Nat) (privateKeyRaw : List Bytes)
    (start : Nat) : (selectFrom start bits privateKeyRaw).length ≤ bits.length := by
  calc (selectFrom start bits privateKeyRaw).length
      ≤ (List.enumFrom start bits).length := List.length_filterMap_le _ _
    _ = bits.length := List.enumFrom_length

/-! ### The forward loop accepts the selected entries (plus any tail) -/

theorem verifyForwardLoop_selectFrom (privateKeyRaw publicKeyRaw : List Bytes)
    (extra : List Bytes) :
    ∀ (bits : List Nat) (start : Nat),
      (∀ i, start ≤ i → i < start + bits.length →
        ∃ e, privateKeyRaw[i]? = some e ∧ e ≠ [] ∧ publicKeyRaw[i]? = some (sha256 e)) →
      verifyForwardLoop publicKeyRaw (List.enumFrom start bits)
        (selectFrom start bits privateKeyRaw ++ extra) = true := by
  intro bits
  induction bits with
  | nil => intro start _; rfl
  | cons b bs ih =>
    intro start h
    obtain ⟨e, hpriv, hecne, hpub⟩ := h start (Nat.le_refl start)
      (by simp only [List.length_cons]; omega)
    have hshift : ∀ i, start + 1 ≤ i → i < start + 1 + bs.length →
        ∃ e, privateKeyRaw[i]? = some e ∧ e ≠ [] ∧ publicKeyRaw[i]? = some (sha256 e) := by
      intro i hi1 hi2
      exact h i (by omega) (by simp only [List.length_cons]; omega)
    have hfilter : (some e).filter (fun item => item != []) = some e := by
      simp [Option.filter, hecne]
    rw [show List.enumFrom start (b :: bs) = (start, b) :: List.enumFrom (start + 1) bs
      from rfl, verifyForwardLoop_cons]
    by_cases hbit : (b == 0) = true
    · have hsel : selectFrom start (b :: bs) privateKeyRaw =
          selectFrom (start + 1) bs privateKeyRaw := by
        have hb0 : b = 0 := by simpa using hbit
        subst hb0
        simp [selectFrom, List.enumFrom, List.filterMap_cons]
      rw [if_pos hbit, hsel]
      exact ih (start + 1) hshift
    · have hb0 : ¬b = 0 := by simpa using hbit
      have hsel : selectFrom start (b :: bs) privateKeyRaw =
          e :: selectFrom (start + 1) bs privateKeyRaw := by
        simp [selectFrom, List.enumFrom, List.filterMap_cons, hb0, hpriv, hfilter]
      rw [if_neg hbit, hsel]
      simp only [List.cons_append]
      rw [if_pos hpub]
      exact ih (start + 1) hshift

/-! ### A too-short signature is always rejected -/

theorem verifyForwardLoop_short (publicKeyRaw : List Bytes) :
    ∀ (bits : List Nat) (start : Nat) (signatureRaw : List Bytes),
      (∀ b ∈ bits, b ≤ 1) →
      signatureRaw.length < bits.count 1 →
      verifyForwardLoop publicKeyRaw (List.enumFrom start bits) signatureRaw = false := by
  intro bits
  induction bits with
  | nil => intro start s _ hs; simp at hs
  | cons b bs ih =>
    intro start s hb hs
    have hbs : ∀ x ∈ bs, x ≤ 1 := fun x hx => hb x (List.mem_cons_of_mem b hx)
    have hble : b ≤ 1 := hb b (List.mem_cons_self b bs)
    rw [show List.enumFrom start (b :: bs) = (start, b) :: List.enumFrom (start + 1) bs
      from rfl, verifyForwardLoop_cons]
    interval_cases b
    · rw [if_pos (by simp)]
      refine ih (start + 1) s hbs ?_
      simpa [List.count_cons] using hs
    · rw [if_neg (by simp)]
      cases s with
      | nil => rfl
      | cons entry remaining =>
        dsimp only
        by_cases hpub : publicKeyRaw[start]? = some (sha256 entry)
        · rw [if_pos hpub]
          refine ih (start + 1) remaining hbs ?_
          simp [List.count_cons] at hs
          omega
        · rw [if_neg hpub]

/-! ### Well-formedness of generated keys and signatures -/

theorem entry_ne_nil {e : Bytes} (he : e.length = HASH_ELEMENT_BYTE_SIZE) : e ≠ [] := by
  intro hcon
  rw [hcon] at he
  simp [HASH_ELEMENT_BYTE_SIZE] at he

theorem getRawPublicKey_validate {priv : List Bytes}
    (h : validateRawKeyFormat priv = true) :
    validateRawKeyFormat (getRawPublicKeyFromRawPrivateKey priv) = true := by
  obtain ⟨hlen, hent⟩ := validateRawKeyFormat_iff.mp h
  refine validateRawKeyFormat_iff.mpr ⟨?_, ?_⟩
  · simp [getRawPublicKeyFromRawPrivateKey, hlen]
  · intro e he
    simp only [getRawPublicKeyFromRawPrivateKey, List.mem_map] at he
    obtain ⟨x, -, rfl⟩ := he
    exact sha256_length x

theorem messageBitVector_length (m : Bytes) : (messageBitVector m).length = 264 :=
  messageBitVectorOfDigest_length (sha256_length m)

theorem signRaw_validate {m : Bytes} {priv : List Bytes}
    (h : validateRawKeyFormat priv = true) :
    validateRawSignatureFormat (signRaw m priv) = true := by
  obtain ⟨-, hent⟩ := validateRawKeyFormat_iff.mp h
  refine validateRawSignatureFormat_iff.mpr ⟨?_, ?_⟩
  · have h1 : (signRaw m priv).length ≤ (messageBitVector m).length :=
      selectFrom_length_le _ _ _
    have h2 := messageBitVector_length m
    simp only [KEY_SIG_ENTRY_COUNT]
    omega
  · intro e he
    exact hent e (mem_selectFrom he)

theorem signRaw_length {m : Bytes} {priv : List Bytes}
    (h : validateRawKeyFormat priv = true) :
    (signRaw m priv).length = (messageBitVector m).count 1 := by
  obtain ⟨hlen, hent⟩ := validateRawKeyFormat_iff.mp h
  have hne : ∀ e ∈ priv, e ≠ [] := fun e he => entry_ne_nil (hent e he)
  have hbits : ∀ b ∈ messageBitVector m, b ≤ 1 :=
    fun b hb => messageBitVectorOfDigest_le_one hb
  have hlen264 : 0 + (messageBitVector m).length ≤ priv.length := by
    rw [messageBitVector_length]
    simp only [KEY_SIG_ENTRY_COUNT] at hlen
    omega
  rw [show signRaw m priv = selectFrom 0 (messageBitVector m) priv from rfl,
    selectFrom_eq_oneBitSelectedEntries priv hne _ 0 hbits hlen264, List.drop_zero]
  refine oneBitSelectedEntries_length _ priv ?_
  rw [messageBitVector_length]
  simp only [KEY_SIG_ENTRY_COUNT] at hlen
  omega

/-! ### Raw-level verification of genuine (and padded, and truncated) signatures -/

theorem verifyRaw_signRaw_append {m : Bytes} {priv : List Bytes} (extra : List Bytes)
    (h : validateRawKeyFormat priv = true) :
    verifyRaw m (signRaw m priv ++ extra)
      (getRawPublicKeyFromRawPrivateKey priv) = true := by
  obtain ⟨hlen, hent⟩ := validateRawKeyFormat_iff.mp h
  rw [verifyRaw, verifyLoop_reverse_eq_forward,
    show (messageBitVector m).enum = List.enumFrom 0 (messageBitVector m) from rfl,
    show signRaw m priv = selectFrom 0 (messageBitVector m) priv from rfl]
  refine verifyForwardLoop_selectFrom priv _ extra (messageBitVector m) 0 ?_
  intro i hi0 hi
  have hibound : i < 264 := by
    rw [Nat.zero_add, messageBitVector_length] at hi
    exact hi
  have hilt : i < priv.length := by
    simp only [KEY_SIG_ENTRY_COUNT] at hlen
    omega
  refine ⟨priv[i], List.getElem?_eq_getElem hilt, ?_, ?_⟩
  · exact entry_ne_nil (hent _ (List.getElem_mem hilt))
  · simp [getRawPublicKeyFromRawPrivateKey, List.getElem?_map,
      List.getElem?_eq_getElem hilt]

theorem verifyRaw_short {m : Bytes} {signatureRaw publicKeyRaw : List Bytes}
    (hshort : signatureRaw.length < (messageBitVector m).count 1) :
    verifyRaw m signatureRaw publicKeyRaw = false := by
  rw [verifyRaw, verifyLoop_reverse_eq_forward,
    show (messageBitVector m).enum = List.enumFrom 0 (messageBitVector m) from rfl]
  exact verifyForwardLoop_short publicKeyRaw (messageBitVector m) 0 signatureRaw
    (fun b hb => messageBitVectorOfDigest_le_one hb) hshort

/-! ### The full encoded pipeline -/

theorem signThenVerify_encoded (cfg : Config) (hk : cfg.keyFormat.Faithful)
    (hs : cfg.signatureFormat.Faithful) (m : Bytes) {priv : List Bytes}
    (hpriv : validateRawKeyFormat priv = true) :
    signThenVerify cfg m (encodeKey cfg.keyFormat priv)
      (encodeKey cfg.keyFormat (getRawPublicKeyFromRawPrivateKey priv)) = true := by
  simp only [signThenVerify, sign, decodeKey_encodeKey hk hpriv, verify,
    decodeSignature_encodeSignature hs (signRaw_validate hpriv),
    decodeKey_encodeKey hk (getRawPublicKey_validate hpriv)]
  simpa using verifyRaw_signRaw_append [] hpriv

theorem generateRandomArray_validate (entropy : Nat → Nat → Nat) :
    validateRawKeyFormat
      (generateRandomArray entropy KEY_SIG_ENTRY_COUNT HASH_ELEMENT_BYTE_SIZE) = true := by
  refine validateRawKeyFormat_iff.mpr ⟨by simp [generateRandomArray], ?_⟩
  intro e he
  simp only [generateRandomArray, List.mem_map] at he
  obtain ⟨i, -, rfl⟩ := he
  simp [randomBytes]

theorem generateRandomArrayFromSeed_validate (seedBytes : Bytes) (suffix : Nat) :
    validateRawKeyFormat
      (generateRandomArrayFromSeed KEY_SIG_ENTRY_COUNT seedBytes suffix) = true := by
  refine validateRawKeyFormat_iff.mpr ⟨by simp [generateRandomArrayFromSeed], ?_⟩
  intro e he
  simp only [generateRandomArrayFromSeed, List.mem_map] at he
  obtain ⟨i, -, rfl⟩ := he
  exact sha256_length _

/-! ### Store lemmas -/

theorem Store.write_mem_self (σ : Store) (target : Nat) (v : List Bytes) :
    (σ.write target v).mem target = v := by
  simp [Store.write]

theorem Store.write_mem_ne (σ : Store) {target cell : Nat} (v : List Bytes)
    (h : cell ≠ target) : (σ.write target v).mem cell = σ.mem cell := by
  simp [Store.write, h]

theorem verifyLoopS_cons (σ : Store) (pubLoc index bit : Nat)
    (rest : List (Nat × Nat)) (sigLoc : Nat) :
    verifyLoopS σ pubLoc ((index, bit) :: rest) sigLoc =
      if bit == 0 then verifyLoopS σ pubLoc rest sigLoc
      else if (σ.mem sigLoc).isEmpty then (σ, false)
      else if ((σ.write sigLoc (σ.mem sigLoc).dropLast).mem pubLoc)[index]? =
          some (sha256 ((σ.mem sigLoc).getLastD [])) then
        verifyLoopS (σ.write sigLoc (σ.mem sigLoc).dropLast) pubLoc rest sigLoc
      else (σ.write sigLoc (σ.mem sigLoc).dropLast, false) := rfl

/-- The loop only ever writes the decoded-signature location. -/
theorem verifyLoopS_mem_other (pubLoc : Nat) (pairs : List (Nat × Nat)) :
    ∀ (σ : Store) (sigLoc cell : Nat), cell ≠ sigLoc →
      ((verifyLoopS σ pubLoc pairs sigLoc).1).mem cell = σ.mem cell := by
  induction pairs with
  | nil => intro σ sigLoc cell _; rfl
  | cons p rest ih =>
    intro σ sigLoc cell hcell
    obtain ⟨index, bit⟩ := p
    rw [verifyLoopS_cons]
    by_cases hbit : (bit == 0) = true
    · rw [if_pos hbit]
      exact ih σ sigLoc cell hcell
    · rw [if_neg hbit]
      by_cases hemp : (σ.mem sigLoc).isEmpty = true
      · rw [if_pos hemp]
      · rw [if_neg hemp]
        by_cases hmatch : ((σ.write sigLoc (σ.mem sigLoc).dropLast).mem pubLoc)[index]? =
            some (sha256 ((σ.mem sigLoc).getLastD []))
        · rw [if_pos hmatch, ih _ sigLoc cell hcell, Store.write_mem_ne σ _ hcell]
        · rw [if_neg hmatch]
          exact Store.write_mem_ne σ _ hcell

/-- The loop's Boolean result agrees with the pure reverse-then-pop
loop, read off the store (the public key location is never the
signature copy). -/
theorem verifyLoopS_eq_verifyLoop (pubLoc : Nat) (pairs : List (Nat × Nat)) :
    ∀ (σ : Store) (sigLoc : Nat), pubLoc ≠ sigLoc →
      (verifyLoopS σ pubLoc pairs sigLoc).2 =
        verifyLoop (σ.mem pubLoc) pairs (σ.mem sigLoc) := by
  induction pairs with
  | nil => intro σ sigLoc _; rfl
  | cons p rest ih =>
    intro σ sigLoc hne
    obtain ⟨index, bit⟩ := p
    rw [verifyLoopS_cons, verifyLoop_cons]
    by_cases hbit : (bit == 0) = true
    · rw [if_pos hbit, if_pos hbit]
      exact ih σ sigLoc hne
    · rw [if_neg hbit, if_neg hbit]
      by_cases hemp : (σ.mem sigLoc).isEmpty = true
      · rw [if_pos hemp, if_pos hemp]
      · rw [if_neg hemp, if_neg hemp]
        have hpubmem : (σ.write sigLoc (σ.mem sigLoc).dropLast).mem pubLoc = σ.mem pubLoc :=
          Store.write_mem_ne σ _ hne
        rw [hpubmem]
        by_cases hmatch : (σ.mem pubLoc)[index]? = some (sha256 ((σ.mem sigLoc).getLastD []))
        · rw [if_pos hmatch, if_pos hmatch,
            ih (σ.write sigLoc (σ.mem sigLoc).dropLast) sigLoc hne, hpubmem,
            Store.write_mem_self]
        · rw [if_neg hmatch, if_neg hmatch]

theorem Store.alloc_fst (σ : Store) (v : List Bytes) : (σ.alloc v).1 = σ.next := rfl

theorem Store.alloc_mem_self (σ : Store) (v : List Bytes) :
    (σ.alloc v).2.mem σ.next = v := by
  simp [Store.alloc]

theorem Store.alloc_mem_ne (σ : Store) (v : List Bytes) {cell : Nat}
    (h : cell ≠ σ.next) : (σ.alloc v).2.mem cell = σ.mem cell := by
  simp [Store.alloc, h]

/-- Full characterization of `verify` on the store, `'object'` formats:
the caller's two arrays are untouched, and the Boolean agrees with the
pure `verify`. -/
theorem verifyS_spec (σ : Store) (m : Bytes) (sigLoc pubLoc : Nat)
    (hsig : sigLoc < σ.next) (hpub : pubLoc < σ.next) :
    (verifyS σ m sigLoc pubLoc).1.mem sigLoc = σ.mem sigLoc ∧
    (verifyS σ m sigLoc pubLoc).1.mem pubLoc = σ.mem pubLoc ∧
    (verifyS σ m sigLoc pubLoc).2 =
      verify cfgObject m (.arr (σ.mem sigLoc)) (.arr (σ.mem pubLoc)) := by
  have hnesig : sigLoc ≠ σ.next := Nat.ne_of_lt hsig
  have hnepub : pubLoc ≠ σ.next := Nat.ne_of_lt hpub
  by_cases hv : validateRawSignatureFormat (σ.mem sigLoc) = true
  · have hdec1 : decodeSignatureObjectS σ sigLoc = some (σ.alloc (σ.mem sigLoc)) := by
      simp [decodeSignatureObjectS, hv]
    have hσ1pub : (σ.alloc (σ.mem sigLoc)).2.mem pubLoc = σ.mem pubLoc :=
      Store.alloc_mem_ne σ _ hnepub
    have hσ1sig : (σ.alloc (σ.mem sigLoc)).2.mem sigLoc = σ.mem sigLoc :=
      Store.alloc_mem_ne σ _ hnesig
    by_cases hk : validateRawKeyFormat (σ.mem pubLoc) = true
    · have hdec2 : decodeKeyObjectS (σ.alloc (σ.mem sigLoc)).2 pubLoc = some pubLoc := by
        simp [decodeKeyObjectS, hσ1pub, hk]
      have hred : verifyS σ m sigLoc pubLoc =
          verifyLoopS
            ((σ.alloc (σ.mem sigLoc)).2.write σ.next
              ((σ.alloc (σ.mem sigLoc)).2.mem σ.next).reverse)
            pubLoc (messageBitVector m).enum σ.next := by
        rw [verifyS, hdec1]
        dsimp only
        rw [hdec2]
        dsimp only [Store.alloc_fst]
      rw [hred, Store.alloc_mem_self]
      have hσ2sig :
          ((σ.alloc (σ.mem sigLoc)).2.write σ.next (σ.mem sigLoc).reverse).mem sigLoc =
            σ.mem sigLoc := by
        rw [Store.write_mem_ne _ _ hnesig, hσ1sig]
      have hσ2pub :
          ((σ.alloc (σ.mem sigLoc)).2.write σ.next (σ.mem sigLoc).reverse).mem pubLoc =
            σ.mem pubLoc := by
        rw [Store.write_mem_ne _ _ hnepub, hσ1pub]
      refine ⟨?_, ?_, ?_⟩
      · rw [verifyLoopS_mem_other _ _ _ _ _ hnesig, hσ2sig]
      · rw [verifyLoopS_mem_other _ _ _ _ _ hnepub, hσ2pub]
      · rw [verifyLoopS_eq_verifyLoop _ _ _ _ hnepub, hσ2pub, Store.write_mem_self]
        simp [verify, cfgObject, decodeSignature, decodeKey, hv, hk, verifyRaw]
    · have hdec2 : decodeKeyObjectS (σ.alloc (σ.mem sigLoc)).2 pubLoc = none := by
        simp [decodeKeyObjectS, hσ1pub, hk]
      have hred : verifyS σ m sigLoc pubLoc = ((σ.alloc (σ.mem sigLoc)).2, false) := by
        rw [verifyS, hdec1]
        dsimp only
        rw [hdec2]
      rw [hred]
      refine ⟨hσ1sig, hσ1pub, ?_⟩
      simp [verify, cfgObject, decodeSignature, decodeKey, hv, hk]
  · have hdec1 : decodeSignatureObjectS σ sigLoc = none := by
      simp [decodeSignatureObjectS, hv]
    have hred : verifyS σ m sigLoc pubLoc = (σ, false) := by
      rw [verifyS, hdec1]
    rw [hred]
    refine ⟨rfl, rfl, ?_⟩
    simp [verify, cfgObject, decodeSignature, hv]

/-- Decoding at the `'object'` formats reduces `verify` to the raw
verifier when both arguments are well-formed. -/
theorem verify_object_raw {m : Bytes} {signatureRaw publicKeyRaw : List Bytes}
    (hsv : validateRawSignatureFormat signatureRaw = true)
    (hkv : validateRawKeyFormat publicKeyRaw = true) :
    verify cfgObject m (.arr signatureRaw) (.arr publicKeyRaw) =
      verifyRaw m signatureRaw publicKeyRaw := by
  simp [verify, cfgObject, decodeSignature, decodeKey, hsv, hkv]

/-! ## The claims -/

/-- C1: For every message M and every key pair (priv, pub) produced by
`generateKeys` (any entropy) or `generateKeysFromSeed` (any seed whose
decoding has at least 32 bytes), `verify(M, sign(M, priv), pub)`
returns true — for every configuration whose transport formats are
byte-faithful (always so for `'object'`/`'json'`/`'buffer'`; the
contract of the charset for the fall-through branch). -/
theorem claim_C1_sign_verify_roundtrip (cfg : Config)
    (hk : cfg.keyFormat.Faithful) (hs : cfg.signatureFormat.Faithful)
    (entropy : Nat → Nat → Nat) (seed : Str)
    (hseed : SEED_BYTE_SIZE ≤ (cfg.seedCharset.toBytes seed).length)
    (index : Nat) (m : Bytes) :
    signThenVerify cfg m (generateKeys cfg entropy).1 (generateKeys cfg entropy).2 = true ∧
    seedKeysThenSignVerify cfg seed index m = true := by
  constructor
  · exact signThenVerify_encoded cfg hk hs m (generateRandomArray_validate entropy)
  · rw [seedKeysThenSignVerify, generateKeysFromSeed, if_neg (by omega)]
    exact signThenVerify_encoded cfg hk hs m (generateRandomArrayFromSeed_validate _ _)

/-- Witness for C1: the `'object'` configuration, a constant entropy
oracle, the 32-byte seed `aaa…a` and the message `hi`. -/
theorem claim_C1_witness :
    (Config.keyFormat cfgObject).Faithful ∧
    SEED_BYTE_SIZE ≤ (cfgObject.seedCharset.toBytes (List.replicate 32 97)).length ∧
    (signThenVerify cfgObject [104, 105]
        (generateKeys cfgObject (fun _ _ => 0)).1
        (generateKeys cfgObject (fun _ _ => 0)).2 = true ∧
      seedKeysThenSignVerify cfgObject (List.replicate 32 97) 0 [104, 105] = true) :=
  ⟨trivial, by decide,
    claim_C1_sign_verify_roundtrip cfgObject trivial trivial (fun _ _ => 0)
      (List.replicate 32 97) (by decide) 0 [104, 105]⟩

/-- C2: `verify` is total with Boolean result; whenever decoding the
signature or the public key fails (any malformed input), it returns
`false` instead of propagating the error. -/
theorem claim_C2_verify_false_on_decode_failure (cfg : Config) (m : Bytes)
    (signature publicKey : Encoded)
    (h : decodeSignature cfg.signatureFormat signature = none ∨
      decodeKey cfg.keyFormat publicKey = none) :
    verify cfg m signature publicKey = false := by
  rw [verify]
  rcases h with h | h
  · rw [h]
  · rw [h]
    cases hds : decodeSignature cfg.signatureFormat signature with
    | none => rfl
    | some s => rfl

/-- Witness for C2: a signature whose single entry is the empty string
(wrong element size) fails decoding, and `verify` returns `false`. -/
theorem claim_C2_witness :
    (decodeSignature cfgObject.signatureFormat (.arr [[]]) = none ∨
      decodeKey cfgObject.keyFormat (.arr []) = none) ∧
    verify cfgObject [104] (.arr [[]]) (.arr []) = false :=
  ⟨Or.inl (by decide),
    claim_C2_verify_false_on_decode_failure cfgObject [104] (.arr [[]]) (.arr [])
      (Or.inl (by decide))⟩

/-- C3: For every message and well-formed 264-entry private key, the
signature is exactly the private-key entries at the 1-bit positions of
the 264-bit message bit vector, in increasing index order; its length
is the popcount of that vector and is at most 264. -/
theorem claim_C3_sign_selects_one_bit_entries (m : Bytes) {priv : List Bytes}
    (hpriv : validateRawKeyFormat priv = true) :
    signRaw m priv = oneBitSelectedEntries (messageBitVector m) priv ∧
    (signRaw m priv).length = (messageBitVector m).count 1 ∧
    (signRaw m priv).length ≤ 264 := by
  obtain ⟨hlen, hent⟩ := validateRawKeyFormat_iff.mp hpriv
  have hne : ∀ e ∈ priv, e ≠ [] := fun e he => entry_ne_nil (hent e he)
  have hbits : ∀ b ∈ messageBitVector m, b ≤ 1 :=
    fun b hb => messageBitVectorOfDigest_le_one hb
  have hlen264 : 0 + (messageBitVector m).length ≤ priv.length := by
    rw [messageBitVector_length]
    simp only [KEY_SIG_ENTRY_COUNT] at hlen
    omega
  refine ⟨?_, signRaw_length hpriv, ?_⟩
  · rw [show signRaw m priv = selectFrom 0 (messageBitVector m) priv from rfl,
      selectFrom_eq_oneBitSelectedEntries priv hne _ 0 hbits hlen264, List.drop_zero]
  · have h1 : (signRaw m priv).length ≤ (messageBitVector m).length :=
      selectFrom_length_le _ _ _
    have h2 := messageBitVector_length m
    omega

/-- Witness for C3: a constant well-formed key and the message `hi`. -/
theorem claim_C3_witness :
    validateRawKeyFormat (List.replicate 264 (List.replicate 32 7)) = true ∧
    (signRaw [104, 105] (List.replicate 264 (List.replicate 32 7)) =
        oneBitSelectedEntries (messageBitVector [104, 105])
          (List.replicate 264 (List.replicate 32 7)) ∧
      (signRaw [104, 105] (List.replicate 264 (List.replicate 32 7))).length =
        (messageBitVector [104, 105]).count 1 ∧
      (signRaw [104, 105] (List.replicate 264 (List.replicate 32 7))).length ≤ 264) :=
  ⟨by decide,
    claim_C3_sign_selects_one_bit_entries [104, 105] (by decide)⟩

/-- C4: For every 32-byte digest, the checksum accumulated by
`sign`/`verify` (both build `messageBitVectorOfDigest`) is the number
of zero bits among the 256 digest bits; the appended byte is that count
reduced modulo 256 (so the all-zero digest's count 256 collapses to the
byte 0), and its 8 bits are appended most-significant-first (the
MSB-first unpacking reassembles to the byte value). -/
theorem claim_C4_checksum_byte (digest : Bytes) (hd : digest.length = 32) :
    checksumOfBits (convertBufferToBitArray digest) =
      (convertBufferToBitArray digest).count 0 ∧
    (convertBufferToBitArray digest).length = 256 ∧
    messageBitVectorOfDigest digest =
      convertBufferToBitArray digest ++
        byteToBits ((convertBufferToBitArray digest).count 0 % 256) ∧
    (∀ c, c < 256 → (byteToBits c).foldl (fun acc bit => 2 * acc + bit) 0 = c) ∧
    checksumOfBits (convertBufferToBitArray (List.replicate 32 0)) = 256 ∧
    messageBitVectorOfDigest (List.replicate 32 0) =
      convertBufferToBitArray (List.replicate 32 0) ++ byteToBits 0 := by
  have hcount : checksumOfBits (convertBufferToBitArray digest) =
      (convertBufferToBitArray digest).count 0 :=
    checksumOfBits_eq_count_zero (fun b hb => convertBufferToBitArray_le_one hb)
  refine ⟨hcount, ?_, ?_, by decide, by decide, by decide⟩
  · rw [convertBufferToBitArray_length, hd]
  · rw [messageBitVectorOfDigest, hcount, checksumBuffer]
    simp [convertBufferToBitArray]

/-- Witness for C4: the constant digest of 32 bytes 7. -/
theorem claim_C4_witness :
    (List.replicate 32 7).length = 32 ∧
    messageBitVectorOfDigest (List.replicate 32 7) =
      convertBufferToBitArray (List.replicate 32 7) ++
        byteToBits ((convertBufferToBitArray (List.replicate 32 7)).count 0 % 256) :=
  ⟨by decide, (claim_C4_checksum_byte (List.replicate 32 7) (by decide)).2.2.1⟩

/-- C5: For every seed decoding to at least 32 bytes and every index,
`generateKeysFromSeed` returns the key pair whose private entry i is
`KeyedHash(seed, "{index}-{i}")` for i in [0,264) and whose public
entry i is the hash of private entry i; identical calls yield identical
(hence byte-identical) pairs. -/
theorem claim_C5_seed_key_derivation (cfg : Config) (seed : Str) (index : Nat)
    (hseed : SEED_BYTE_SIZE ≤ (cfg.seedCharset.toBytes seed).length) :
    generateKeysFromSeed cfg seed index =
      .ok (encodeKey cfg.keyFormat
            (generateRandomArrayFromSeed KEY_SIG_ENTRY_COUNT
              (cfg.seedCharset.toBytes seed) index),
          encodeKey cfg.keyFormat
            (getRawPublicKeyFromRawPrivateKey
              (generateRandomArrayFromSeed KEY_SIG_ENTRY_COUNT
                (cfg.seedCharset.toBytes seed) index))) ∧
    (∀ i, i < KEY_SIG_ENTRY_COUNT →
      (generateRandomArrayFromSeed KEY_SIG_ENTRY_COUNT
          (cfg.seedCharset.toBytes seed) index)[i]? =
        some (hmacSha256 (cfg.seedCharset.toBytes seed)
          (natToDecChars index ++ 45 :: natToDecChars i))) ∧
    (∀ i, i < KEY_SIG_ENTRY_COUNT →
      (getRawPublicKeyFromRawPrivateKey
          (generateRandomArrayFromSeed KEY_SIG_ENTRY_COUNT
            (cfg.seedCharset.toBytes seed) index))[i]? =
        ((generateRandomArrayFromSeed KEY_SIG_ENTRY_COUNT
            (cfg.seedCharset.toBytes seed) index)[i]?).map sha256) ∧
    generateKeysFromSeed cfg seed index = generateKeysFromSeed cfg seed index := by
  refine ⟨?_, ?_, ?_, rfl⟩
  · rw [generateKeysFromSeed, if_neg (by omega)]
  · intro i hi
    simp [generateRandomArrayFromSeed, List.getElem?_map, List.getElem?_range, hi]
  · intro i hi
    simp [getRawPublicKeyFromRawPrivateKey, List.getElem?_map]

/-- Witness for C5: the `'object'` configuration, the seed `aaa…a`,
index 0, checked at entry 5. -/
theorem claim_C5_witness :
    SEED_BYTE_SIZE ≤ (cfgObject.seedCharset.toBytes (List.replicate 32 97)).length ∧
    (5 : Nat) < KEY_SIG_ENTRY_COUNT ∧
    (generateRandomArrayFromSeed KEY_SIG_ENTRY_COUNT
        (cfgObject.seedCharset.toBytes (List.replicate 32 97)) 0)[5]? =
      some (hmacSha256 (cfgObject.seedCharset.toBytes (List.replicate 32 97))
        (natToDecChars 0 ++ 45 :: natToDecChars 5)) :=
  ⟨by decide, by decide,
    (claim_C5_seed_key_derivation cfgObject (List.replicate 32 97) 0 (by decide)).2.1
      5 (by decide)⟩

/-- C6: `generateKeysFromSeed` raises `SeedTooShortError` exactly when
the seed decoded under the configured seed encoding is shorter than 32
bytes; the guard precedes all key derivation. -/
theorem claim_C6_seed_too_short_guard (cfg : Config) (seed : Str) (index : Nat) :
    generateKeysFromSeed cfg seed index = .error .SeedTooShortError ↔
      (cfg.seedCharset.toBytes seed).length < SEED_BYTE_SIZE := by
  rw [generateKeysFromSeed]
  by_cases h : (cfg.seedCharset.toBytes seed).length < SEED_BYTE_SIZE
  · simp [h]
  · simp [h]

/-- C7: For every transport format whose external layer is
byte-faithful and every well-formed structured key (private or public)
and signature, `decode(encode(k)) = k`. -/
theorem claim_C7_codec_roundtrip (fmt : FormatName) (hf : fmt.Faithful)
    {k s : List Bytes} (hk : validateRawKeyFormat k = true)
    (hs : validateRawSignatureFormat s = true) :
    decodeKey fmt (encodeKey fmt k) = some k ∧
    decodeSignature fmt (encodeSignature fmt s) = some s :=
  ⟨decodeKey_encodeKey hf hk, decodeSignature_encodeSignature hf hs⟩

/-- Witness for C7: the `'buffer'` format on a constant key and a
one-entry signature. -/
theorem claim_C7_witness :
    validateRawKeyFormat (List.replicate 264 (List.replicate 32 3)) = true ∧
    validateRawSignatureFormat [List.replicate 32 5] = true ∧
    (decodeKey .buffer (encodeKey .buffer (List.replicate 264 (List.replicate 32 3))) =
        some (List.replicate 264 (List.replicate 32 3)) ∧
      decodeSignature .buffer (encodeSignature .buffer [List.replicate 32 5]) =
        some [List.replicate 32 5]) :=
  ⟨by decide, by decide,
    claim_C7_codec_roundtrip .buffer trivial (by decide) (by decide)⟩

/-- C8: with the structured format, a genuine signature with extra
well-formed 32-byte entries appended (total still at most 264) still
verifies - the surplus tail is never consumed - while a genuine
signature with trailing entries removed is rejected (by exhaustion or
an earlier mismatch). -/
theorem claim_C8_wrong_entry_count (m : Bytes) {priv : List Bytes}
    (hpriv : validateRawKeyFormat priv = true) (extra : List Bytes)
    (hextra : extra.all entryIsValid = true)
    (hroom : (signRaw m priv).length + extra.length ≤ KEY_SIG_ENTRY_COUNT)
    (k : Nat) (hk : k < (signRaw m priv).length) :
    verify cfgObject m (.arr (signRaw m priv ++ extra))
      (.arr (getRawPublicKeyFromRawPrivateKey priv)) = true ∧
    verify cfgObject m (.arr ((signRaw m priv).take k))
      (.arr (getRawPublicKeyFromRawPrivateKey priv)) = false := by
  obtain ⟨hlen, hent⟩ := validateRawKeyFormat_iff.mp hpriv
  have hextra2 : ∀ e ∈ extra, e.length = HASH_ELEMENT_BYTE_SIZE := by
    intro e he
    have := (List.all_eq_true.mp hextra) e he
    simpa [entryIsValid] using this
  have hsigval : validateRawSignatureFormat (signRaw m priv ++ extra) = true := by
    refine validateRawSignatureFormat_iff.mpr ⟨by simpa using hroom, ?_⟩
    intro e he
    rcases List.mem_append.mp he with he | he
    · exact hent e (mem_selectFrom he)
    · exact hextra2 e he
  have hsiglen : (signRaw m priv).length = (messageBitVector m).count 1 :=
    signRaw_length hpriv
  have htakeval : validateRawSignatureFormat ((signRaw m priv).take k) = true := by
    refine validateRawSignatureFormat_iff.mpr ⟨?_, ?_⟩
    · have h1 : ((signRaw m priv).take k).length ≤ (signRaw m priv).length := by
        simp [List.length_take]
      have h2 : (signRaw m priv).length ≤ KEY_SIG_ENTRY_COUNT :=
        (validateRawSignatureFormat_iff.mp (signRaw_validate hpriv)).1
      omega
    · intro e he
      exact hent e (mem_selectFrom (List.take_subset _ _ he))
  constructor
  · rw [verify_object_raw hsigval (getRawPublicKey_validate hpriv)]
    exact verifyRaw_signRaw_append extra hpriv
  · rw [verify_object_raw htakeval (getRawPublicKey_validate hpriv)]
    refine verifyRaw_short ?_
    have h1 : ((signRaw m priv).take k).length = k := by
      simp [List.length_take]
      omega
    omega

/-- Witness for C8: a constant key, the message `hi`, one appended
spare entry, and truncation to the empty signature. -/
theorem claim_C8_witness :
    validateRawKeyFormat (List.replicate 264 (List.replicate 32 7)) = true ∧
    [List.replicate 32 9].all entryIsValid = true ∧
    (signRaw [104, 105] (List.replicate 264 (List.replicate 32 7))).length +
        [List.replicate 32 9].length ≤ KEY_SIG_ENTRY_COUNT ∧
    (0 : Nat) < (signRaw [104, 105] (List.replicate 264 (List.replicate 32 7))).length ∧
    (verify cfgObject [104, 105]
        (.arr (signRaw [104, 105] (List.replicate 264 (List.replicate 32 7)) ++
          [List.replicate 32 9]))
        (.arr (getRawPublicKeyFromRawPrivateKey
          (List.replicate 264 (List.replicate 32 7)))) = true ∧
      verify cfgObject [104, 105]
        (.arr ((signRaw [104, 105] (List.replicate 264 (List.replicate 32 7))).take 0))
        (.arr (getRawPublicKeyFromRawPrivateKey
          (List.replicate 264 (List.replicate 32 7)))) = false) :=
  ⟨by decide, by decide, by decide, by decide,
    claim_C8_wrong_entry_count [104, 105] (by decide) [List.replicate 32 9]
      (by decide) (by decide) 0 (by decide)⟩

/-- C9: the implemented reverse-the-signature-then-pop-from-the-tail
verifier computes the same Boolean as the forward-cursor reference
algorithm of spec §4.4, for every message, signature and public key. -/
theorem claim_C9_reverse_pop_refines_forward_cursor (m : Bytes)
    (signatureRaw publicKeyRaw : List Bytes) :
    verifyRaw m signatureRaw publicKeyRaw =
      verifyForward m signatureRaw publicKeyRaw := by
  rw [verifyRaw, verifyForward, verifyLoop_reverse_eq_forward]

/-- C10: under the `'object'` formats, `verify` never mutates the
caller's arrays: the decoded signature is a fresh copy, the in-place
reversal and pops hit only that copy, and the public-key array is only
read - afterwards both caller locations hold their original values,
and the Boolean agrees with the pure `verify`. -/
theorem claim_C10_verify_no_caller_mutation (σ : Store) (m : Bytes)
    (sigLoc pubLoc : Nat) (hsig : sigLoc < σ.next) (hpub : pubLoc < σ.next) :
    (verifyS σ m sigLoc pubLoc).1.mem sigLoc = σ.mem sigLoc ∧
    (verifyS σ m sigLoc pubLoc).1.mem pubLoc = σ.mem pubLoc ∧
    (verifyS σ m sigLoc pubLoc).2 =
      verify cfgObject m (.arr (σ.mem sigLoc)) (.arr (σ.mem pubLoc)) :=
  verifyS_spec σ m sigLoc pubLoc hsig hpub

/-- Witness for C10: a two-location store holding empty arrays. -/
theorem claim_C10_witness :
    (0 : Nat) < (Store.mk (fun _ => []) 2).next ∧
    (1 : Nat) < (Store.mk (fun _ => []) 2).next ∧
    ((verifyS (Store.mk (fun _ => []) 2) [104] 0 1).1.mem 0 =
        (Store.mk (fun _ => ([] : List Bytes)) 2).mem 0 ∧
      (verifyS (Store.mk (fun _ => []) 2) [104] 0 1).1.mem 1 =
        (Store.mk (fun _ => ([] : List Bytes)) 2).mem 1 ∧
      (verifyS (Store.mk (fun _ => []) 2) [104] 0 1).2 =
        verify cfgObject [104]
          (.arr ((Store.mk (fun _ => ([] : List Bytes)) 2).mem 0))
          (.arr ((Store.mk (fun _ => ([] : List Bytes)) 2).mem 1))) :=
  ⟨by decide, by decide,
    claim_C10_verify_no_caller_mutation (Store.mk (fun _ => []) 2) [104] 0 1
      (by decide) (by decide)⟩

end LiteLamport
